import Mathlib

/-!
Verification of the CSIDH core of the `velusqrt` repository.

The Python sources under `src/sidh/` are shallowly embedded below:

* `src/sidh/fp.py` — the prime-field class `F_p` (a record holding the
  modulus `p` and three operation counters) and the module-level
  extended-gcd `xgcd`.  Python machine-independent integers are modelled by
  `Int`; the Python `%` on a positive modulus agrees with `Int.emod`.
* `src/sidh/csidh/montgomery.py` — the closure `MontgomeryLadder`:
  differential addition chains (`dacs`, `sdac`), curve arithmetic
  (`affine_to_projective`, `coeff`, `xDBL`, `xADD`, `xMUL`),
  `prime_factors`, and the cache-persistence helpers.  Mutation of the
  shared counter object is made explicit: every field operation takes and
  returns the `F_p` record.
* `src/sidh/csidh/__init__.py` — the byte-level facade `CSIDH.dh` /
  `CSIDH.public_key` (`pack`/`unpack` of signed bytes, little-endian
  `int.from_bytes` / `int.to_bytes`).

The group-action engines (`gae_df`/`gae_wd1`/`gae_wd2`) and the parameter
tables (`sidh/constants.py`) are not part of the sources; where a claim
depends on them they are modelled from the specification, and each such
definition is marked `Modelled from the spec:` in its doc comment.
-/

namespace Velu

/-- The `F_p` object of `src/sidh/fp.py`: the field modulus `p` together
with the three mutable operation counters set in `__init__`
(`fpadd`, `fpsqr`, `fpmul`). -/
structure F_p where
  p : Int
  fpadd : Nat
  fpsqr : Nat
  fpmul : Nat
deriving DecidableEq, Repr

/-- Method `F_p.fp_add`: increments `fpadd` and returns `(a + b) % p`. -/
def fp_add (fp : F_p) (a b : Int) : F_p × Int :=
  ({ fp with fpadd := fp.fpadd + 1 }, (a + b) % fp.p)

/-- Method `F_p.fp_sub`: increments `fpadd` and returns `(a - b) % p`. -/
def fp_sub (fp : F_p) (a b : Int) : F_p × Int :=
  ({ fp with fpadd := fp.fpadd + 1 }, (a - b) % fp.p)

/-- Method `F_p.fp_mul`: increments `fpmul` and returns `(a * b) % p`. -/
def fp_mul (fp : F_p) (a b : Int) : F_p × Int :=
  ({ fp with fpmul := fp.fpmul + 1 }, (a * b) % fp.p)

/-- Method `F_p.fp_sqr`: increments `fpsqr` and returns `(a ** 2) % p`. -/
def fp_sqr (fp : F_p) (a : Int) : F_p × Int :=
  ({ fp with fpsqr := fp.fpsqr + 1 }, (a ^ 2) % fp.p)

/-- The `while remainder:` loop of `xgcd` in `src/sidh/fp.py`.  The loop
variables are `lastremainder`/`remainder` (always non-negative, so they are
kept in `Nat`) and the Bézout coefficients `x, lastx, y, lasty : Int`.
Python's `divmod` on non-negative operands is Nat division/remainder.
The `fuel` argument only bounds the iteration count; since `remainder`
strictly decreases, `remainder + 1` units never run out (`xgcdLoop_le`
below), so the fueled function computes exactly the Python loop. -/
def xgcdLoop : Nat → Nat → Nat → Int → Int → Int → Int → Nat × Int × Int
  | 0, lastrem, _, _, lastx, _, lasty => (lastrem, lastx, lasty)
  | fuel + 1, lastrem, rem, x, lastx, y, lasty =>
    if rem = 0 then (lastrem, lastx, lasty)
    else
      xgcdLoop fuel rem (lastrem % rem)
        (lastx - ((lastrem / rem : Nat) : Int) * x) x
        (lasty - ((lastrem / rem : Nat) : Int) * y) y

/-- Function `xgcd(aa, bb)` from `src/sidh/fp.py`: runs the loop on
`abs(aa), abs(bb)` starting from coefficients `x, lastx, y, lasty =
0, 1, 1, 0`, then flips the signs of the returned coefficients when the
corresponding input was negative. -/
def xgcd (aa bb : Int) : Nat × Int × Int :=
  let r := xgcdLoop (bb.natAbs + 1) aa.natAbs bb.natAbs 0 1 1 0
  (r.1, r.2.1 * (if aa < 0 then -1 else 1), r.2.2 * (if bb < 0 then -1 else 1))

/-- Method `F_p.fp_inv`: `g, x, y = xgcd(a, self.p); return x % self.p`.
(The `g != 1` check is commented out in the source.)  No counter is
touched. -/
def fp_inv (fp : F_p) (a : Int) : Int :=
  (xgcd a fp.p).2.1 % fp.p

/-! ### Differential addition chains (`dacs` / `sdac`, montgomery.py) -/

/-- One branching step of the chain enumeration in `dacs`
(montgomery.py): on bit `1` the state `(r0, r1, r2)` becomes
`(r0, r2, r2 + r0)`, on bit `0` it becomes `(r1, r2, r2 + r1)`. -/
def chainstep (s : Nat × Nat × Nat) (b : Nat) : Nat × Nat × Nat :=
  if b = 1 then (s.1, s.2.2, s.2.2 + s.1) else (s.2.1, s.2.2, s.2.2 + s.2.1)

/-- Execute a whole chain from a starting state. -/
def chainexec (s : Nat × Nat × Nat) (c : List Nat) : Nat × Nat × Nat :=
  c.foldl chainstep s

/-- The value `r2` reached by a chain from the seed `(1, 2, 3)`. -/
def chaintarget (c : List Nat) : Nat :=
  (chainexec (1, 2, 3) c).2.2

/-- Function `dacs(l, r0, r1, r2, chain)` from montgomery.py: returns all
differential addition chains for `l`.  The source prunes with
`len(chain) <= 1.5 * math.log(l, 2)`; for a natural number `k` and an odd
`l > 1` the inequality `k ≤ 1.5·log₂ l` is equivalent to the exact test
`4 ^ k ≤ l ^ 3` used here (`log₂ l` is irrational, so equality never
occurs and the comparison is strict on both sides). -/
def dacs (l r0 r1 r2 : Nat) (chain : List Nat) : List (List Nat × Nat) :=
  if r2 = l then [(chain, r2)]
  else if h : r2 < l ∧ 4 ^ chain.length ≤ l ^ 3 then
    dacs l r0 r2 (r2 + r0) (chain ++ [1]) ++ dacs l r1 r2 (r2 + r1) (chain ++ [0])
  else []
termination_by l ^ 3 - chain.length
decreasing_by
  · have hlt : chain.length < 4 ^ chain.length := Nat.lt_pow_self (by norm_num) _
    simp only [List.length_append, List.length_cons, List.length_nil]
    omega
  · have hlt : chain.length < 4 ^ chain.length := Nat.lt_pow_self (by norm_num) _
    simp only [List.length_append, List.length_cons, List.length_nil]
    omega

/-- Python's `min(xs, key=f)`: left fold keeping the first element whose
key is strictly smaller than the current minimum; `none` on an empty
list (where Python raises `ValueError`). -/
def pymin (f : α → Nat) : List α → Option α
  | [] => none
  | x :: xs => some (xs.foldl (fun acc y => if f y < f acc then y else acc) x)

/-- Function `sdac(l)` from montgomery.py:
`min(dacs(l, 1, 2, 3, []), key=lambda t: len(t[0]))[0]`. -/
def sdac (l : Nat) : Option (List Nat) :=
  (pymin (fun t => t.1.length) (dacs l 1 2 3 [])).map (fun t => t.1)

/-! ### Montgomery curve arithmetic (montgomery.py) -/

/-- Modelled from the spec: the starting projective curve constant
`A = parameters['csidh']['A']` comes from the parameter tables
(`sidh/constants.py`), which are not under `src/`; per the spec the
starting curve is `(A24, C24) = (2, 4)`. -/
def A0 : Int × Int := (2, 4)

/-- Function `affine_to_projective(affine)` from montgomery.py:
`res[0] = fp_add(affine, A[0]); res[1] = fp_add(0, A[1])`. -/
def affine_to_projective (fp : F_p) (affine : Int) : F_p × (Int × Int) :=
  let s1 := fp_add fp affine A0.1
  let s2 := fp_add s1.1 0 A0.2
  (s2.1, (s1.2, s2.2))

/-- Function `coeff(A)` from montgomery.py:
`output = 2*A24; output -= C24; C24_inv = 1/C24; output += output;
output *= C24_inv`. -/
def coeff (fp : F_p) (A : Int × Int) : F_p × Int :=
  let s1 := fp_add fp A.1 A.1
  let s2 := fp_sub s1.1 s1.2 A.2
  let C24_inv := fp_inv s2.1 A.2
  let s3 := fp_add s2.1 s2.2 s2.2
  let s4 := fp_mul s3.1 s3.2 C24_inv
  (s4.1, s4.2)

/-- Function `isinfinity(P)` from montgomery.py: `P[1] == 0`. -/
def isinfinity (P : Int × Int) : Bool :=
  P.2 = 0

/-- Function `xDBL(P, A)` from montgomery.py, with the counter object threaded
explicitly through the ten field operations of the body. -/
def xDBL (fp : F_p) (P A : Int × Int) : F_p × (Int × Int) :=
  let s1 := fp_sub fp P.1 P.2
  let s2 := fp_add s1.1 P.1 P.2
  let s3 := fp_sqr s2.1 s1.2
  let s4 := fp_sqr s3.1 s2.2
  let s5 := fp_mul s4.1 A.2 s3.2
  let s6 := fp_mul s5.1 s5.2 s4.2
  let s7 := fp_sub s6.1 s4.2 s3.2
  let s8 := fp_mul s7.1 A.1 s7.2
  let s9 := fp_add s8.1 s5.2 s8.2
  let s10 := fp_mul s9.1 s9.2 s7.2
  (s10.1, (s6.2, s10.2))

/-- Function `xADD(P, Q, PQ)` from montgomery.py, counters threaded explicitly:
`a=(XP+ZP); b=(XP-ZP); c=(XQ+ZQ); d=(XQ-ZQ); a*=d; b*=c; c=a+b; d=a-b;
c=c^2; d=d^2; X=ZPQ*c; Z=XPQ*d`. -/
def xADD (fp : F_p) (P Q PQ : Int × Int) : F_p × (Int × Int) :=
  let s1 := fp_add fp P.1 P.2
  let s2 := fp_sub s1.1 P.1 P.2
  let s3 := fp_add s2.1 Q.1 Q.2
  let s4 := fp_sub s3.1 Q.1 Q.2
  let s5 := fp_mul s4.1 s1.2 s4.2
  let s6 := fp_mul s5.1 s2.2 s3.2
  let s7 := fp_add s6.1 s5.2 s6.2
  let s8 := fp_sub s7.1 s5.2 s6.2
  let s9 := fp_sqr s8.1 s7.2
  let s10 := fp_sqr s9.1 s8.2
  let s11 := fp_mul s10.1 PQ.2 s9.2
  let s12 := fp_mul s11.1 PQ.1 s10.2
  (s12.1, (s11.2, s12.2))

/-- Index into the three-point window `R = [R0, R1, R2]` of `xMUL`; the
chain entries produced by `dacs` are the bits `0` and `1`. -/
def Rsel (R : (Int × Int) × (Int × Int) × (Int × Int)) (b : Nat) : Int × Int :=
  if b = 0 then R.1 else if b = 1 then R.2.1 else R.2.2

/-- One iteration of the `for i in range(SDACS_LENGTH[j]-1, -1, -1)` loop
of `xMUL`: bit `b = SDACS[j][i]` selects between a doubling of `R[2]`
(when `R[b]` is the point at infinity) and a differential addition
`xADD(R[2], R[b^1], R[b])`, after which the window shifts to
`[R[b^1], R[2], T]`. -/
def xMUL_step (A : Int × Int) (st : F_p × ((Int × Int) × (Int × Int) × (Int × Int)))
    (b : Nat) : F_p × ((Int × Int) × (Int × Int) × (Int × Int)) :=
  let fp := st.1
  let R := st.2
  let sT :=
    if isinfinity (Rsel R b) then xDBL fp R.2.2 A
    else xADD fp R.2.2 (Rsel R (b ^^^ 1)) (Rsel R b)
  (sT.1, (Rsel R (b ^^^ 1), R.2.2, sT.2))

/-- Function `xMUL(P, A, j)` from montgomery.py: starts from
`R = [P, 2P, xADD(2P, P, P)]` and consumes the bits of `SDACS[j]` from
the most significant end (the Python loop walks the list backwards, hence
`reverse`), returning `R[2]`. -/
def xMUL (fp : F_p) (SDACS : List (List Nat)) (P A : Int × Int) (j : Nat) :
    F_p × (Int × Int) :=
  let s1 := xDBL fp P A
  let s2 := xADD s1.1 s1.2 P P
  let r := ((SDACS.getD j []).reverse).foldl (xMUL_step A) (s2.1, (P, s1.2, s2.2))
  (r.1, r.2.2.2)

/-- Function `prime_factors(P, A, points)` from montgomery.py.  The return value
models Python's: `none` is the implicit `return None` falling off the end
(empty `points`), `some l` a returned list.  The second component records
whether the explicit `return []` statement (the `h > 0` else-branch) was
executed anywhere in the recursion.  When a recursive call returns `None`,
Python's `list + None` would raise; that situation is mapped to `none`
(it is proved unreachable below). -/
def prime_factors (fp : F_p) (SDACS : List (List Nat)) (P A : Int × Int)
    (points : List Nat) : F_p × (Option (List (Int × Int)) × Bool) :=
  if h1 : points.length = 1 then (fp, (some [P], false))
  else if h0 : points.length > 0 then
    let h := points.length / 2
    if hh : h > 0 then
      let first_half := points.take h
      let second_half := points.drop h
      let l1 := (points.take h).foldl
        (fun (st : F_p × (Int × Int)) j => xMUL st.1 SDACS st.2 A j) (fp, P)
      let l2 := (points.drop h).foldl
        (fun (st : F_p × (Int × Int)) j => xMUL st.1 SDACS st.2 A j) (l1.1, P)
      let second_P := l1.2
      let first_P := l2.2
      let r1 := prime_factors l2.1 SDACS first_P A first_half
      let r2 := prime_factors r1.1 SDACS second_P A second_half
      (r2.1,
        (match r1.2.1, r2.2.1 with
          | some a, some b => some (a ++ b)
          | _, _ => none,
         r1.2.2 || r2.2.2))
    else (fp, (some [], true))
  else (fp, (none, false))
termination_by points.length
decreasing_by
  · simp only [List.length_take]
    omega
  · simp only [List.length_drop]
    omega

/-! ### Byte-level facade (`src/sidh/csidh/__init__.py`) -/

/-- Model of `struct.unpack` with a signed-byte format: each byte of the secret key is read as a
signed 8-bit integer (two's complement). -/
def unpack_signed (sk : List Int) : List Int :=
  sk.map (fun b => if 128 ≤ b then b - 256 else b)

/-- Model of `int.from_bytes(pk, 'little')`. -/
def from_bytes_le : List Int → Int
  | [] => 0
  | b :: bs => b + 256 * from_bytes_le bs

/-- Model of Python `to_bytes` (width `w`, little-endian) for `0 ≤ x < 256^w`
(outside that range Python raises `OverflowError`; the facade only ever
converts canonical residues, which are in range). -/
def to_bytes_le : Nat → Int → List Int
  | 0, _ => []
  | w + 1, x => x % 256 :: to_bytes_le w (x / 256)

/-- Modelled from the spec: the group-action engines
(`sidh/csidh/gae_df.py`, `gae_wd1.py`, `gae_wd2.py`) are not under
`src/`.  Per spec §4.F the action applies a commutative class-group
element determined by the exponent vector to the curve; a curve is
identified by its affine Montgomery coefficient, so the engine is
parametrised here by an arbitrary action `act` on affine coefficients:
the projective input is converted with `coeff`, acted on, and converted
back with `affine_to_projective`. -/
def gae_action (act : List Int → Int → Int) (fp : F_p) (e : List Int)
    (A : Int × Int) : F_p × (Int × Int) :=
  let s1 := coeff fp A
  affine_to_projective s1.1 (act e s1.2)

/-- Modelled from the spec: `gae.dh(e, A)` validates the peer curve (the
validation succeeds on every curve produced by the action, spec §4.F) and
returns `action(e, A)`. -/
def gae_dh (act : List Int → Int → Int) (fp : F_p) (e : List Int)
    (A : Int × Int) : F_p × (Int × Int) :=
  gae_action act fp e A

/-- Modelled from the spec: `gae.pubkey(e) = action(e, A_start)` with the
starting curve constant `A0`. -/
def gae_pubkey (act : List Int → Int → Int) (fp : F_p) (e : List Int) :
    F_p × (Int × Int) :=
  gae_action act fp e A0

/-- Method `CSIDH.dh(sk, pk)` from `src/sidh/csidh/__init__.py`: unpack the
secret key as signed bytes, read the public key as a little-endian
integer, lift it with `affine_to_projective`, apply the group-action
engine's `dh`, extract the affine coefficient with `coeff` and serialise
it into `w = p_bits // 8` little-endian bytes. -/
def CSIDH_dh (act : List Int → Int → Int) (fp : F_p) (w : Nat)
    (sk pk : List Int) : List Int :=
  let e := unpack_signed sk
  let pkn := from_bytes_le pk
  let s1 := affine_to_projective fp pkn
  let s2 := gae_dh act s1.1 e s1.2
  let s3 := coeff s2.1 s2.2
  to_bytes_le w s3.2

/-- Method `CSIDH.public_key(sk)` from `src/sidh/csidh/__init__.py`. -/
def CSIDH_public_key (act : List Int → Int → Int) (fp : F_p) (w : Nat)
    (sk : List Int) : List Int :=
  let e := unpack_signed sk
  let s1 := gae_pubkey act fp e
  let s2 := coeff s1.1 s1.2
  to_bytes_le w s2.2

/-! ### Construction-time behaviour (claims C8 and C9)

`MontgomeryLadder` in montgomery.py begins with `fp = F_p('csidh', prime)`
while `F_p.__init__(self, p)` in fp.py declares exactly one parameter
besides `self` and no defaults or varargs, so CPython raises `TypeError`
at that call.  The call protocol is modelled explicitly: a constructor
with a fixed parameter list applied to an argument list succeeds only if
the lengths agree. -/

/-- Python exception kinds relevant to the construction path. -/
inductive PyErr
  | typeError
  | nameError
deriving DecidableEq, Repr

/-- The parameter list of `F_p.__init__` besides `self`
(`src/sidh/fp.py`, line 7: `def __init__(self, p):`). -/
def F_p_init_params : List String := ["p"]

/-- The attributes assigned on `self` by `F_p.__init__`
(`src/sidh/fp.py`, lines 9–12). -/
def F_p_init_attrs : List String := ["fpadd", "fpsqr", "fpmul", "p"]

/-- The `F_p` attributes read by `elligator`, `full_torsion_points`,
`prime_factors`' callers and `validate` in montgomery.py
(`fp.p_minus_one_halves` line 67, `fp.exponent_of_two` lines 322/331/353,
`fp.n` lines 325/333/356/359, `fp.validation_stop` line 369). -/
def fp_attrs_referenced : List String :=
  ["p_minus_one_halves", "exponent_of_two", "n", "validation_stop"]

/-- Calling `F_p(...)` with a list of positional arguments: CPython binds
them against `F_p_init_params` and raises `TypeError` on an arity
mismatch; on success `__init__` runs (it sets the attributes and cannot
fail). -/
def call_F_p (args : List String) : Except PyErr Unit :=
  if args.length = F_p_init_params.length then Except.ok () else Except.error PyErr.typeError

/-- Function `write_list_of_lists_of_ints_to_file(path, data)` from montgomery.py
(the I/O itself is irrelevant to the claims; the function body is what is
modelled).  For a non-empty `data` the first loop iteration evaluates
`' '.join(str(v) for v in v in line)`: the iterable `v in line` is
evaluated eagerly in the enclosing scope, where the name `v` is unbound,
so CPython raises `NameError`.  For empty `data` the loop body never runs
and the final statement `fh.writelines()` raises `TypeError` (missing
required argument). -/
def write_list_of_lists_of_ints_to_file (data : List (List Int)) : Except PyErr Unit :=
  match data with
  | [] => Except.error PyErr.typeError
  | _ :: _ => Except.error PyErr.nameError

/-- The beginning of `MontgomeryLadder(prime, style)` from montgomery.py:
the first effectful statement is `fp = F_p('csidh', prime)`, a
two-argument call.  Everything after it (parameter lookup, SDAC cache
handling, the closure construction) is unreachable, which the returned
`Except` makes explicit. -/
def MontgomeryLadder (prime style : String) : Except PyErr Unit :=
  match call_F_p ["csidh", prime] with
  | Except.error e => Except.error e
  | Except.ok _ => Except.ok ()

/-- A concrete commutative class-group action used to instantiate the
spec-modelled engine on the toy field `F_7`: shift the affine coefficient
by the sum of the exponent vector. -/
def act7 (e : List Int) (a : Int) : Int :=
  (a + e.sum) % 7

/-! ## Helper lemmas -/

/-- Two integers with equal images in `ZMod m` have equal canonical
residues. -/
theorem emod_eq_of_cast_eq {m : Nat} {a b : Int}
    (h : (a : ZMod m) = (b : ZMod m)) : a % (m : Int) = b % (m : Int) :=
  (ZMod.intCast_eq_intCast_iff' a b m).mp h

@[simp] theorem fp_add_fst_p (fp : F_p) (a b : Int) : (fp_add fp a b).1.p = fp.p := rfl

@[simp] theorem fp_sub_fst_p (fp : F_p) (a b : Int) : (fp_sub fp a b).1.p = fp.p := rfl

@[simp] theorem fp_mul_fst_p (fp : F_p) (a b : Int) : (fp_mul fp a b).1.p = fp.p := rfl

@[simp] theorem fp_sqr_fst_p (fp : F_p) (a : Int) : (fp_sqr fp a).1.p = fp.p := rfl

@[simp] theorem coeff_fst_p (fp : F_p) (A : Int × Int) : (coeff fp A).1.p = fp.p := rfl

@[simp] theorem affine_to_projective_fst_p (fp : F_p) (a : Int) :
    (affine_to_projective fp a).1.p = fp.p := rfl

/-- The fueled loop never exhausts its fuel: the first component of the
result is the gcd of the loop variables whenever `rem < fuel` (the
remainder strictly decreases each iteration). -/
theorem xgcdLoop_fst (fuel : Nat) :
    ∀ lastrem rem : Nat, ∀ x lastx y lasty : Int, rem < fuel →
      (xgcdLoop fuel lastrem rem x lastx y lasty).1 = Nat.gcd rem lastrem := by
  induction fuel with
  | zero => intro lastrem rem x lastx y lasty h; omega
  | succ fuel ih =>
    intro lastrem rem x lastx y lasty h
    by_cases h0 : rem = 0
    · subst h0
      simp [xgcdLoop]
    · rw [xgcdLoop, if_neg h0, ih]
      · exact (Nat.gcd_rec rem lastrem).symm
      · have := Nat.mod_lt lastrem (show 0 < rem by omega)
        omega

/-- Bézout invariant of the `xgcd` loop: if the incoming coefficient
pairs represent `lastremainder` and `remainder` as combinations of `A`
and `B`, the returned pair represents the returned gcd. -/
theorem xgcdLoop_bezout (A B : Int) (fuel : Nat) :
    ∀ lastrem rem : Nat, ∀ x lastx y lasty : Int, rem < fuel →
      lastx * A + lasty * B = (lastrem : Int) →
      x * A + y * B = (rem : Int) →
      (xgcdLoop fuel lastrem rem x lastx y lasty).2.1 * A +
        (xgcdLoop fuel lastrem rem x lastx y lasty).2.2 * B =
        ((xgcdLoop fuel lastrem rem x lastx y lasty).1 : Int) := by
  induction fuel with
  | zero => intro lastrem rem x lastx y lasty h; omega
  | succ fuel ih =>
    intro lastrem rem x lastx y lasty h h1 h2
    by_cases h0 : rem = 0
    · subst h0
      simpa [xgcdLoop] using h1
    · rw [xgcdLoop, if_neg h0]
      refine ih rem (lastrem % rem) _ _ _ _ ?_ h2 ?_
      · have := Nat.mod_lt lastrem (show 0 < rem by omega)
        omega
      · have h3 : (rem : Int) * ((lastrem / rem : Nat) : Int) +
            ((lastrem % rem : Nat) : Int) = (lastrem : Int) := by
          exact_mod_cast Nat.div_add_mod lastrem rem
        calc (lastx - ((lastrem / rem : Nat) : Int) * x) * A +
            (lasty - ((lastrem / rem : Nat) : Int) * y) * B
            = (lastx * A + lasty * B) -
              ((lastrem / rem : Nat) : Int) * (x * A + y * B) := by ring
          _ = (lastrem : Int) - ((lastrem / rem : Nat) : Int) * (rem : Int) := by
              rw [h1, h2]
          _ = ((lastrem % rem : Nat) : Int) := by linarith

/-- Lemma: `xgcd` returns the gcd of its inputs together with Bézout
coefficients for them. -/
theorem xgcd_spec (aa bb : Int) :
    (xgcd aa bb).1 = Int.gcd aa bb ∧
      (xgcd aa bb).2.1 * aa + (xgcd aa bb).2.2 * bb = ((xgcd aa bb).1 : Int) := by
  constructor
  · show (xgcdLoop (bb.natAbs + 1) aa.natAbs bb.natAbs 0 1 1 0).1 = _
    rw [xgcdLoop_fst _ _ _ _ _ _ _ (Nat.lt_succ_self _)]
    exact Nat.gcd_comm _ _
  · have habs : ∀ c : Int, (if c < 0 then (-1 : Int) else 1) * c = (c.natAbs : Int) := by
      intro c
      rcases lt_or_le c 0 with hc | hc
      · rw [if_pos hc, Int.natCast_natAbs, abs_of_neg hc]
        ring
      · rw [if_neg (not_lt.mpr hc), Int.natCast_natAbs, abs_of_nonneg hc]
        ring
    have hb := xgcdLoop_bezout ((aa.natAbs : Int)) ((bb.natAbs : Int)) (bb.natAbs + 1)
      aa.natAbs bb.natAbs 0 1 1 0 (Nat.lt_succ_self _) (by ring) (by ring)
    show (xgcdLoop (bb.natAbs + 1) aa.natAbs bb.natAbs 0 1 1 0).2.1 *
        (if aa < 0 then (-1 : Int) else 1) * aa +
        (xgcdLoop (bb.natAbs + 1) aa.natAbs bb.natAbs 0 1 1 0).2.2 *
        (if bb < 0 then (-1 : Int) else 1) * bb = _
    calc (xgcdLoop (bb.natAbs + 1) aa.natAbs bb.natAbs 0 1 1 0).2.1 *
          (if aa < 0 then (-1 : Int) else 1) * aa +
          (xgcdLoop (bb.natAbs + 1) aa.natAbs bb.natAbs 0 1 1 0).2.2 *
          (if bb < 0 then (-1 : Int) else 1) * bb
        = (xgcdLoop (bb.natAbs + 1) aa.natAbs bb.natAbs 0 1 1 0).2.1 *
          ((if aa < 0 then (-1 : Int) else 1) * aa) +
          (xgcdLoop (bb.natAbs + 1) aa.natAbs bb.natAbs 0 1 1 0).2.2 *
          ((if bb < 0 then (-1 : Int) else 1) * bb) := by ring
      _ = _ := by rw [habs aa, habs bb, hb]; rfl

/-- The Bézout coefficient produced by `xgcd(z, m)` is an inverse of `z`
in `ZMod m` whenever `gcd(z, m) = 1`. -/
theorem xgcd_cast_inv (m : Nat) (z : Int) (hz : Int.gcd z (m : Int) = 1) :
    ((xgcd z (m : Int)).2.1 : ZMod m) * (z : ZMod m) = 1 := by
  obtain ⟨hg, hb⟩ := xgcd_spec z (m : Int)
  rw [hg, hz] at hb
  have := congrArg (fun t : Int => (t : ZMod m)) hb
  push_cast at this
  rw [ZMod.natCast_self] at this
  simpa using this

/-- Lemma: `fp_inv` composed with the cast into `ZMod m` inverts `z`. -/
theorem fp_inv_cast (m : Nat) (fp : F_p) (hfp : fp.p = (m : Int)) (z : Int)
    (hz : Int.gcd z (m : Int) = 1) :
    ((fp_inv fp z : Int) : ZMod m) * (z : ZMod m) = 1 := by
  show (((xgcd z fp.p).2.1 % fp.p : Int) : ZMod m) * _ = 1
  rw [hfp, ZMod.intCast_mod]
  exact xgcd_cast_inv m z hz

/-- Lemma: `fp_inv` returns a canonical residue. -/
theorem fp_inv_range (m : Nat) (hm : 0 < m) (fp : F_p) (hfp : fp.p = (m : Int))
    (z : Int) : 0 ≤ fp_inv fp z ∧ fp_inv fp z < (m : Int) := by
  unfold fp_inv
  rw [hfp]
  constructor
  · exact Int.emod_nonneg _ (by exact_mod_cast hm.ne')
  · exact Int.emod_lt_of_pos _ (by exact_mod_cast hm)

/-- Lemma: `4` is invertible modulo an odd `m`. -/
theorem gcd_four_odd (m : Nat) (ho : m % 2 = 1) : Int.gcd 4 (m : Int) = 1 := by
  have h2 : Nat.Coprime 2 m := by
    show Nat.gcd 2 m = 1
    rw [Nat.gcd_rec 2 m, ho]
    simp
  have h4 : Nat.gcd 4 m = 1 := by
    have := Nat.Coprime.pow_left 2 h2
    simpa [Nat.Coprime, show (2 : Nat) ^ 2 = 4 by norm_num] using this
  have : Int.gcd 4 (m : Int) = Nat.gcd 4 m := by
    simp [Int.gcd, Int.natAbs_ofNat]
  rw [this, h4]

/-- The value computed by `coeff`, by unfolding the threaded state. -/
theorem coeff_snd (fp : F_p) (A : Int × Int) :
    (coeff fp A).2 =
      ((((A.1 + A.1) % fp.p - A.2) % fp.p + ((A.1 + A.1) % fp.p - A.2) % fp.p) % fp.p *
        ((xgcd A.2 fp.p).2.1 % fp.p)) % fp.p := rfl

/-- The pair computed by `affine_to_projective`. -/
theorem affine_to_projective_snd (fp : F_p) (a : Int) :
    (affine_to_projective fp a).2 = ((a + 2) % fp.p, (0 + 4) % fp.p) := rfl

/-- Converting an affine coefficient in `[0, m)` to projective
coordinates and extracting the affine coefficient again is the identity,
for any odd modulus `m > 4` and any counter states. -/
theorem coeff_affine_roundtrip (m : Nat) (hm : 4 < m) (ho : m % 2 = 1)
    (fp fp2 : F_p) (hfp : fp.p = (m : Int)) (hfp2 : fp2.p = (m : Int))
    (a : Int) (ha0 : 0 ≤ a) (ha : a < (m : Int)) :
    (coeff fp2 (affine_to_projective fp a).2).2 = a := by
  have hm4 : (4 : Int) < (m : Int) := by exact_mod_cast hm
  have h4 : (affine_to_projective fp a).2 = ((a + 2) % (m : Int), 4) := by
    rw [affine_to_projective_snd, hfp]
    rw [show ((0 : Int) + 4) = 4 by norm_num, Int.emod_eq_of_lt (by norm_num) hm4]
  rw [h4, coeff_snd, hfp2]
  have hinv := xgcd_cast_inv m 4 (gcd_four_odd m ho)
  rw [show a = a % (m : Int) from (Int.emod_eq_of_lt ha0 ha).symm]
  apply emod_eq_of_cast_eq
  push_cast [ZMod.intCast_mod]
  linear_combination (a : ZMod m) * hinv

/-- The affine coefficient of the starting curve `(2, 4)` is `0`. -/
theorem coeff_A0 (m : Nat) (hm : 4 < m) (fp : F_p) (hfp : fp.p = (m : Int)) :
    (coeff fp A0).2 = 0 := by
  have hm4 : (4 : Int) < (m : Int) := by exact_mod_cast hm
  rw [coeff_snd, hfp]
  rw [show A0 = ((2 : Int), (4 : Int)) from rfl]
  rw [show ((2 : Int) + 2) = 4 by norm_num, Int.emod_eq_of_lt (by norm_num) hm4]
  norm_num

/-- Lemma: `to_bytes` followed by `int.from_bytes` is the identity on
`[0, 256^w)`. -/
theorem from_to_bytes_le (w : Nat) :
    ∀ x : Int, 0 ≤ x → x < 256 ^ w → from_bytes_le (to_bytes_le w x) = x := by
  induction w with
  | zero =>
    intro x h0 h1
    simp only [pow_zero] at h1
    simp only [to_bytes_le, from_bytes_le]
    omega
  | succ w ih =>
    intro x h0 h1
    have h2 : (256 : Int) ^ (w + 1) = 256 * 256 ^ w := by ring
    rw [to_bytes_le, from_bytes_le, ih (x / 256) (by omega) (by omega)]
    omega

/-- The public-key bytes are the serialised acted-on starting
coefficient. -/
theorem CSIDH_public_key_val (m : Nat) (hm : 4 < m) (ho : m % 2 = 1)
    (fp : F_p) (hfp : fp.p = (m : Int)) (w : Nat)
    (act : List Int → Int → Int)
    (hrange : ∀ e a, 0 ≤ act e a ∧ act e a < (m : Int)) (sk : List Int) :
    CSIDH_public_key act fp w sk = to_bytes_le w (act (unpack_signed sk) 0) := by
  simp only [CSIDH_public_key, gae_pubkey, gae_action]
  rw [coeff_A0 m hm fp hfp]
  rw [coeff_affine_roundtrip m hm ho (coeff fp A0).1 _ (by simp [hfp]) (by simp [hfp])
    (act (unpack_signed sk) 0) (hrange _ _).1 (hrange _ _).2]

/-- The shared-secret bytes computed by `dh` from serialised input
bytes. -/
theorem CSIDH_dh_val (m : Nat) (hm : 4 < m) (ho : m % 2 = 1)
    (fp : F_p) (hfp : fp.p = (m : Int)) (w : Nat) (hw : (m : Int) ≤ 256 ^ w)
    (act : List Int → Int → Int)
    (hrange : ∀ e a, 0 ≤ act e a ∧ act e a < (m : Int))
    (sk : List Int) (v : Int) (hv0 : 0 ≤ v) (hv : v < (m : Int)) :
    CSIDH_dh act fp w sk (to_bytes_le w v) =
      to_bytes_le w (act (unpack_signed sk) v) := by
  simp only [CSIDH_dh, gae_dh, gae_action]
  rw [from_to_bytes_le w v hv0 (lt_of_lt_of_le hv hw)]
  rw [coeff_affine_roundtrip m hm ho fp _ hfp (by simp [hfp]) v hv0 hv]
  rw [coeff_affine_roundtrip m hm ho _ _ (by simp [hfp]) (by simp [hfp])
    (act (unpack_signed sk) v) (hrange _ _).1 (hrange _ _).2]

/-! ## The claims -/

/-- C1: Commutativity of the shared-secret derivation: for every pair
of valid secret keys (byte strings of signed 8-bit exponents),
`dh(sk_a, public_key(sk_b))` and `dh(sk_b, public_key(sk_a))` return
identical byte strings.  The group-action engine is modelled from the
spec as an arbitrary action `act` on affine coefficients that returns
canonical residues and commutes (spec §4.F correctness invariant); the
byte plumbing, `affine_to_projective` and `coeff` are the source's. -/
theorem C1_dh_commutes (m w : Nat) (hm : 4 < m) (ho : m % 2 = 1)
    (hw : (m : Int) ≤ 256 ^ w) (fp : F_p) (hfp : fp.p = (m : Int))
    (act : List Int → Int → Int)
    (hrange : ∀ e a, 0 ≤ act e a ∧ act e a < (m : Int))
    (hcomm : ∀ e1 e2 a, act e1 (act e2 a) = act e2 (act e1 a))
    (sk_a sk_b : List Int)
    (hska : ∀ b ∈ sk_a, 0 ≤ b ∧ b < 256) (hskb : ∀ b ∈ sk_b, 0 ≤ b ∧ b < 256) :
    CSIDH_dh act fp w sk_a (CSIDH_public_key act fp w sk_b) =
      CSIDH_dh act fp w sk_b (CSIDH_public_key act fp w sk_a) := by
  rw [CSIDH_public_key_val m hm ho fp hfp w act hrange sk_b,
    CSIDH_public_key_val m hm ho fp hfp w act hrange sk_a,
    CSIDH_dh_val m hm ho fp hfp w hw act hrange sk_a _ (hrange _ _).1 (hrange _ _).2,
    CSIDH_dh_val m hm ho fp hfp w hw act hrange sk_b _ (hrange _ _).1 (hrange _ _).2,
    hcomm]

/-- Witness for C1 on the toy parameters `m = 7`, `w = 1` with the
shift-by-exponent-sum action `act7`. -/
theorem C1_dh_commutes_witness :
    CSIDH_dh act7 ⟨7, 0, 0, 0⟩ 1 [1] (CSIDH_public_key act7 ⟨7, 0, 0, 0⟩ 1 [255]) =
      CSIDH_dh act7 ⟨7, 0, 0, 0⟩ 1 [255] (CSIDH_public_key act7 ⟨7, 0, 0, 0⟩ 1 [1]) := by
  refine C1_dh_commutes 7 1 (by norm_num) (by norm_num) (by norm_num) _ rfl act7
    ?_ ?_ [1] [255] ?_ ?_
  · intro e a
    unfold act7
    omega
  · intro e1 e2 a
    unfold act7
    omega
  · intro b hb
    simp only [List.mem_singleton] at hb
    omega
  · intro b hb
    simp only [List.mem_singleton] at hb
    omega

/-- C2 counterexample: At `p = 7`, `(A24, C24) = (3, 4)` the value
returned by `coeff` times `C24/4` (computed in `F_p` as
`C24 · fp_inv(4)`) is not congruent to `2·A24 − C24` modulo `p`: the
code divides `2·(2·A24 − C24)` by `C24`, not `2·A24 − C24` by `C24/4`. -/
theorem C2_claim_counterexample :
    ¬ ((coeff ⟨7, 0, 0, 0⟩ (3, 4)).2 * ((4 * fp_inv ⟨7, 0, 0, 0⟩ 4) % 7)) % 7 =
      (2 * 3 - 4) % 7 := by decide

/-- C2 amended: For every projective constant `A = (A24, C24)` with
`C24` invertible modulo `m`, `coeff(A)` returns the canonical residue of
`2·(2·A24 − C24)/C24` (which equals the affine coefficient `A/C`): the
result times `C24` is congruent to `2·(2·A24 − C24)` modulo `m`, and the
result lies in `[0, m)`. -/
theorem C2_coeff_correct (m : Nat) (hm : 1 < m) (fp : F_p)
    (hfp : fp.p = (m : Int)) (A : Int × Int) (hc : Int.gcd A.2 (m : Int) = 1) :
    ((coeff fp A).2 * A.2) % (m : Int) = (2 * (2 * A.1 - A.2)) % (m : Int) ∧
      0 ≤ (coeff fp A).2 ∧ (coeff fp A).2 < (m : Int) := by
  have hm0 : (0 : Int) < (m : Int) := by exact_mod_cast Nat.lt_of_lt_of_le Nat.zero_lt_one hm.le
  refine ⟨?_, ?_, ?_⟩
  · have hinv := xgcd_cast_inv m A.2 hc
    rw [coeff_snd, hfp]
    apply emod_eq_of_cast_eq
    push_cast [ZMod.intCast_mod]
    linear_combination (2 * (2 * (A.1 : ZMod m) - (A.2 : ZMod m))) * hinv
  · rw [coeff_snd, hfp]
    exact Int.emod_nonneg _ hm0.ne'
  · rw [coeff_snd, hfp]
    exact Int.emod_lt_of_pos _ hm0

/-- Witness for the amended C2 at `m = 7`, `A = (3, 4)`. -/
theorem C2_coeff_correct_witness :
    ((coeff ⟨7, 0, 0, 0⟩ (3, 4)).2 * (3, (4 : Int)).2) % ((7 : Nat) : Int) =
        (2 * (2 * (3 : Int) - 4)) % ((7 : Nat) : Int) ∧
      0 ≤ (coeff ⟨7, 0, 0, 0⟩ (3, 4)).2 ∧
      (coeff ⟨7, 0, 0, 0⟩ (3, 4)).2 < ((7 : Nat) : Int) :=
  C2_coeff_correct 7 (by norm_num) ⟨7, 0, 0, 0⟩ rfl (3, 4) (by norm_num)

/-- C3 counterexample: A single `xDBL` call does not increment the
counters by `3M + 2S + 4a`: at `p = 7`, `P = (1, 1)`, `A = (2, 4)`
starting from zeroed counters, the multiplication counter ends at `4`,
not `3`. -/
theorem C3_claim_counterexample :
    ¬ ((xDBL ⟨7, 0, 0, 0⟩ (1, 1) (2, 4)).1.fpmul = 0 + 3 ∧
       (xDBL ⟨7, 0, 0, 0⟩ (1, 1) (2, 4)).1.fpsqr = 0 + 2 ∧
       (xDBL ⟨7, 0, 0, 0⟩ (1, 1) (2, 4)).1.fpadd = 0 + 4) := by decide

/-- C3 amended: A single `xDBL` call increments the counters by
exactly `4` multiplications, `2` squarings and `4`
additions/subtractions, for every point, curve constant and starting
counter state. -/
theorem C3_xDBL_ops (fp : F_p) (P A : Int × Int) :
    (xDBL fp P A).1.fpmul = fp.fpmul + 4 ∧
      (xDBL fp P A).1.fpsqr = fp.fpsqr + 2 ∧
      (xDBL fp P A).1.fpadd = fp.fpadd + 4 :=
  ⟨rfl, rfl, rfl⟩

/-- C4: With the starting constants `(A24, C24) = (2, 4)` (modelled
from the spec's parameter table), converting an affine coefficient
`a ∈ [0, p)` to projective form and back with `coeff` is the identity;
stated for any odd modulus `m > 4`, which the CSIDH primes satisfy. -/
theorem C4_affine_projective_roundtrip (m : Nat) (hm : 4 < m) (ho : m % 2 = 1)
    (fp : F_p) (hfp : fp.p = (m : Int)) (a : Int) (ha0 : 0 ≤ a)
    (ha : a < (m : Int)) :
    (coeff (affine_to_projective fp a).1 (affine_to_projective fp a).2).2 = a :=
  coeff_affine_roundtrip m hm ho fp _ hfp (by simp [hfp]) a ha0 ha

/-- Witness for C4 at `m = 7`, `a = 3`. -/
theorem C4_affine_projective_roundtrip_witness :
    (coeff (affine_to_projective ⟨7, 0, 0, 0⟩ 3).1
      (affine_to_projective ⟨7, 0, 0, 0⟩ 3).2).2 = 3 :=
  C4_affine_projective_roundtrip 7 (by norm_num) (by norm_num) ⟨7, 0, 0, 0⟩ rfl 3
    (by norm_num) (by norm_num)

/-- C6: Modular-inverse correctness: for `1 ≤ a < m` with
`gcd(a, m) = 1`, `fp_inv(a) · a ≡ 1 (mod m)` and the result is a
canonical residue in `[0, m)`. -/
theorem C6_fp_inv_correct (m : Nat) (hm : 1 < m) (fp : F_p)
    (hfp : fp.p = (m : Int)) (a : Int) (h1 : 1 ≤ a) (h2 : a < (m : Int))
    (hg : Int.gcd a (m : Int) = 1) :
    (fp_inv fp a * a) % (m : Int) = 1 ∧
      0 ≤ fp_inv fp a ∧ fp_inv fp a < (m : Int) := by
  have hm1 : (1 : Int) < (m : Int) := by exact_mod_cast hm
  refine ⟨?_, fp_inv_range m (by omega) fp hfp a⟩
  have hone : (1 : Int) % (m : Int) = 1 := Int.emod_eq_of_lt (by norm_num) hm1
  rw [show (1 : Int) = (1 : Int) % (m : Int) from hone.symm]
  apply emod_eq_of_cast_eq
  push_cast
  exact fp_inv_cast m fp hfp a hg

/-- Witness for C6 at `m = 7`, `a = 3` (the inverse is `5`). -/
theorem C6_fp_inv_correct_witness :
    (fp_inv ⟨7, 0, 0, 0⟩ 3 * 3) % ((7 : Nat) : Int) = 1 ∧
      0 ≤ fp_inv ⟨7, 0, 0, 0⟩ 3 ∧ fp_inv ⟨7, 0, 0, 0⟩ 3 < ((7 : Nat) : Int) :=
  C6_fp_inv_correct 7 (by norm_num) ⟨7, 0, 0, 0⟩ rfl 3 (by norm_num) (by norm_num)
    (by norm_num)

/-- C7: Differential addition is symmetric in its first two
arguments: `xADD(P, Q, PQ) = xADD(Q, P, PQ)` — the whole result agrees,
counters included — for points with canonical-residue coordinates. -/
theorem C7_xADD_symmetric (m : Nat) (hm : 0 < m) (fp : F_p)
    (hfp : fp.p = (m : Int)) (P Q PQ : Int × Int)
    (hP : 0 ≤ P.1 ∧ P.1 < (m : Int) ∧ 0 ≤ P.2 ∧ P.2 < (m : Int))
    (hQ : 0 ≤ Q.1 ∧ Q.1 < (m : Int) ∧ 0 ≤ Q.2 ∧ Q.2 < (m : Int))
    (hPQ : 0 ≤ PQ.1 ∧ PQ.1 < (m : Int) ∧ 0 ≤ PQ.2 ∧ PQ.2 < (m : Int)) :
    xADD fp P Q PQ = xADD fp Q P PQ := by
  simp only [xADD, fp_add, fp_sub, fp_mul, fp_sqr]
  rw [hfp]
  refine congrArg₂ Prod.mk rfl (congrArg₂ Prod.mk ?_ ?_)
  · apply emod_eq_of_cast_eq
    push_cast [ZMod.intCast_mod]
    ring
  · apply emod_eq_of_cast_eq
    push_cast [ZMod.intCast_mod]
    ring

/-- Witness for C7 at `m = 5`, `P = (1, 2)`, `Q = (3, 4)`,
`PQ = (2, 3)`. -/
theorem C7_xADD_symmetric_witness :
    xADD ⟨5, 0, 0, 0⟩ (1, 2) (3, 4) (2, 3) = xADD ⟨5, 0, 0, 0⟩ (3, 4) (1, 2) (2, 3) :=
  C7_xADD_symmetric 5 (by norm_num) ⟨5, 0, 0, 0⟩ rfl (1, 2) (3, 4) (2, 3)
    (by norm_num) (by norm_num) (by norm_num)

/-- C8: The claim describes the intended behaviour (regenerate and
write the SDAC cache, construction completes); the code cannot do it:
construction raises `TypeError` already at `F_p('csidh', prime)`, and the
write helper itself raises on every input (`NameError` from the unbound
`v` in `for v in v in line` for non-empty data, `TypeError` from the
argument-less `fh.writelines()` for empty data). -/
theorem C8_regeneration_raises :
    MontgomeryLadder "p512" "df" = Except.error PyErr.typeError ∧
      write_list_of_lists_of_ints_to_file [[1, 1, 0]] = Except.error PyErr.nameError ∧
      write_list_of_lists_of_ints_to_file [] = Except.error PyErr.typeError :=
  ⟨rfl, rfl, rfl⟩

/-- C9: `F_p.__init__` declares exactly one parameter besides
`self`, the call in `MontgomeryLadder` passes two arguments, so
construction raises `TypeError` for every prime label and style; and
none of the four `fp` attributes later read by `elligator`,
`full_torsion_points` and `validate` is among the attributes
`__init__` defines. -/
theorem C9_constructor_arity_mismatch :
    F_p_init_params.length = 1 ∧
      (∀ prime style : String, MontgomeryLadder prime style = Except.error PyErr.typeError) ∧
      F_p_init_attrs.contains "p_minus_one_halves" = false ∧
      F_p_init_attrs.contains "exponent_of_two" = false ∧
      F_p_init_attrs.contains "n" = false ∧
      F_p_init_attrs.contains "validation_stop" = false := by
  refine ⟨rfl, ?_, by decide, by decide, by decide, by decide⟩
  intro prime style
  rfl

/-- C10: `prime_factors` with an empty index list falls off the end
of the function (Python's implicit `None`, modelled as `none`), with a
singleton index list it returns `[P]` with the point and the counter
state untouched, and the explicit `return []` branch is never executed
on any input. -/
theorem C10_prime_factors_edge :
    (∀ (fp : F_p) (S : List (List Nat)) (P A : Int × Int),
      prime_factors fp S P A [] = (fp, (none, false))) ∧
      (∀ (fp : F_p) (S : List (List Nat)) (P A : Int × Int) (j : Nat),
        prime_factors fp S P A [j] = (fp, (some [P], false))) ∧
      (∀ (fp : F_p) (S : List (List Nat)) (P A : Int × Int) (pts : List Nat),
        (prime_factors fp S P A pts).2.2 = false) := by
  have main : ∀ (n : Nat) (pts : List Nat), pts.length ≤ n →
      ∀ (fp : F_p) (S : List (List Nat)) (P A : Int × Int),
        (prime_factors fp S P A pts).2.2 = false := by
    intro n
    induction n with
    | zero =>
      intro pts h fp S P A
      have hnil : pts = [] := List.length_eq_zero.mp (by omega)
      subst hnil
      rw [prime_factors]
      norm_num
    | succ n ih =>
      intro pts h fp S P A
      rw [prime_factors]
      by_cases h1 : pts.length = 1
      · rw [dif_pos h1]
      · rw [dif_neg h1]
        by_cases h0 : pts.length > 0
        · rw [dif_pos h0]
          have hh : pts.length / 2 > 0 := by omega
          rw [dif_pos hh]
          simp only [Bool.or_eq_false_iff]
          constructor
          · exact ih _ (by simp only [List.length_take]; omega) _ _ _ _
          · exact ih _ (by simp only [List.length_drop]; omega) _ _ _ _
        · rw [dif_neg h0]
  refine ⟨?_, ?_, fun fp S P A pts => main pts.length pts le_rfl fp S P A⟩
  · intro fp S P A
    rw [prime_factors]
    norm_num
  · intro fp S P A j
    rw [prime_factors]
    norm_num

/-! ## Lemmas for C5 (`dacs` / `sdac`) -/

/-- Chain execution preserves positivity of all three registers and
strictly increases `r2` on a non-empty chain. -/
theorem chainexec_pos_lt : ∀ (t : List Nat) (s : Nat × Nat × Nat),
    1 ≤ s.1 → 1 ≤ s.2.1 → 1 ≤ s.2.2 →
    (1 ≤ (chainexec s t).1 ∧ 1 ≤ (chainexec s t).2.1 ∧ 1 ≤ (chainexec s t).2.2) ∧
      (t ≠ [] → s.2.2 < (chainexec s t).2.2) := by
  intro t
  induction t with
  | nil =>
    intro s h1 h2 h3
    exact ⟨⟨h1, h2, h3⟩, by simp⟩
  | cons b t2 ih =>
    intro s h1 h2 h3
    have hstep : chainexec s (b :: t2) = chainexec (chainstep s b) t2 := by
      simp [chainexec]
    have hs1 : 1 ≤ (chainstep s b).1 := by
      by_cases hb : b = 1 <;> simp [chainstep, hb] <;> omega
    have hs2 : 1 ≤ (chainstep s b).2.1 := by
      by_cases hb : b = 1 <;> simp [chainstep, hb] <;> omega
    have hs3 : s.2.2 < (chainstep s b).2.2 := by
      by_cases hb : b = 1 <;> simp [chainstep, hb] <;> omega
    obtain ⟨hinv, hlt⟩ := ih (chainstep s b) hs1 hs2 (by omega)
    rw [hstep]
    refine ⟨hinv, fun _ => ?_⟩
    by_cases ht : t2 = []
    · subst ht
      simpa [chainexec] using hs3
    · exact lt_trans hs3 (hlt ht)

/-- Soundness of the enumeration: every entry of
`dacs l r0 r1 r2 chain` extends `chain` by a suffix whose execution from
`(r0, r1, r2)` reaches `l`. -/
theorem dacs_sound (l : Nat) :
    ∀ (r0 r1 r2 : Nat) (chain : List Nat), ∀ c : List Nat, ∀ r : Nat,
      (c, r) ∈ dacs l r0 r1 r2 chain →
      ∃ t, c = chain ++ t ∧ (chainexec (r0, r1, r2) t).2.2 = l := by
  refine dacs.induct l
    (fun r0 r1 r2 chain => ∀ c : List Nat, ∀ r : Nat,
      (c, r) ∈ dacs l r0 r1 r2 chain →
      ∃ t, c = chain ++ t ∧ (chainexec (r0, r1, r2) t).2.2 = l) ?_ ?_ ?_
  · intro r0 r1 chain c r hm
    rw [dacs, if_pos rfl] at hm
    simp only [List.mem_singleton, Prod.mk.injEq] at hm
    exact ⟨[], by simp [hm.1, chainexec]⟩
  · intro r0 r1 r2 chain hne h ih1 ih2 c r hm
    rw [dacs, if_neg hne, dif_pos h, List.mem_append] at hm
    rcases hm with hm | hm
    · obtain ⟨t, hct, hex⟩ := ih1 c r hm
      refine ⟨1 :: t, by simp [hct], ?_⟩
      simpa [chainexec, chainstep] using hex
    · obtain ⟨t, hct, hex⟩ := ih2 c r hm
      refine ⟨0 :: t, by simp [hct], ?_⟩
      simpa [chainexec, chainstep] using hex
  · intro r0 r1 r2 chain hne hng c r hm
    rw [dacs, if_neg hne, dif_neg hng] at hm
    simp at hm

/-- Completeness of the enumeration: every binary chain that reaches `l`
and whose every proper prefix respects the depth bound is produced by
`dacs`. -/
theorem dacs_complete :
    ∀ (t : List Nat) (l r0 r1 r2 : Nat) (chain : List Nat),
      1 ≤ r0 → 1 ≤ r1 → 1 ≤ r2 →
      (∀ b ∈ t, b = 0 ∨ b = 1) →
      (chainexec (r0, r1, r2) t).2.2 = l →
      (∀ k, k < t.length → 4 ^ (chain.length + k) ≤ l ^ 3) →
      (chain ++ t, l) ∈ dacs l r0 r1 r2 chain := by
  intro t
  induction t with
  | nil =>
    intro l r0 r1 r2 chain h0 h1 h2 hbin hex hbound
    have hr2 : r2 = l := by simpa [chainexec] using hex
    rw [dacs, if_pos hr2]
    simp [hr2]
  | cons b t2 ih =>
    intro l r0 r1 r2 chain h0 h1 h2 hbin hex hbound
    have hstep : chainexec (r0, r1, r2) (b :: t2) =
        chainexec (chainstep (r0, r1, r2) b) t2 := by
      simp [chainexec]
    rw [hstep] at hex
    have hs1 : 1 ≤ (chainstep (r0, r1, r2) b).1 := by
      by_cases hb : b = 1 <;> simp [chainstep, hb] <;> omega
    have hs2 : 1 ≤ (chainstep (r0, r1, r2) b).2.1 := by
      by_cases hb : b = 1 <;> simp [chainstep, hb] <;> omega
    have hs3 : r2 < (chainstep (r0, r1, r2) b).2.2 := by
      by_cases hb : b = 1 <;> simp [chainstep, hb] <;> omega
    have hr2l : r2 < l := by
      obtain ⟨hinv, hlt⟩ := chainexec_pos_lt t2 (chainstep (r0, r1, r2) b) hs1 hs2
        (by omega)
      by_cases ht : t2 = []
      · subst ht
        simp only [chainexec, List.foldl_nil] at hex
        omega
      · have := hlt ht
        omega
    have hguard : r2 < l ∧ 4 ^ chain.length ≤ l ^ 3 := by
      refine ⟨hr2l, ?_⟩
      have := hbound 0 (by simp)
      simpa using this
    rw [dacs, if_neg (by omega), dif_pos hguard, List.mem_append]
    have hbound2 : ∀ chain2 : List Nat, chain2.length = chain.length + 1 →
        ∀ k, k < t2.length → 4 ^ (chain2.length + k) ≤ l ^ 3 := by
      intro chain2 hlen k hk
      rw [hlen]
      have := hbound (k + 1) (by simp; omega)
      rw [show chain.length + 1 + k = chain.length + (k + 1) by omega]
      exact this
    rcases hbin b (by simp) with hb | hb
    · subst hb
      right
      have hmem := ih l r1 r2 (r2 + r1) (chain ++ [0]) h1 (by omega) (by omega)
        (fun x hx => hbin x (by simp [hx]))
        (by simpa [chainstep] using hex)
        (hbound2 (chain ++ [0]) (by simp))
      simpa using hmem
    · subst hb
      left
      have hmem := ih l r0 r2 (r2 + r0) (chain ++ [1]) h0 (by omega) (by omega)
        (fun x hx => hbin x (by simp [hx]))
        (by simpa [chainstep] using hex)
        (hbound2 (chain ++ [1]) (by simp))
      simpa using hmem

/-- Replacing every non-`1` chain entry by `0` does not change the
execution. -/
theorem chainexec_norm (t : List Nat) :
    ∀ s, chainexec s (t.map fun b => if b = 1 then 1 else 0) = chainexec s t := by
  induction t with
  | nil => intro s; rfl
  | cons b t2 ih =>
    intro s
    have hstep : chainstep s (if b = 1 then 1 else 0) = chainstep s b := by
      by_cases hb : b = 1 <;> simp [chainstep, hb]
    simp only [List.map_cons, chainexec, List.foldl_cons] at *
    rw [hstep, ih]

/-- Specification of the fold underlying `pymin`: the result is the
first element of minimal key among the accumulator and the list. -/
theorem pymin_foldl_spec (f : α → Nat) :
    ∀ (xs : List α) (a : α),
      (xs.foldl (fun acc y => if f y < f acc then y else acc) a = a ∨
        xs.foldl (fun acc y => if f y < f acc then y else acc) a ∈ xs) ∧
      f (xs.foldl (fun acc y => if f y < f acc then y else acc) a) ≤ f a ∧
      ∀ y ∈ xs, f (xs.foldl (fun acc y => if f y < f acc then y else acc) a) ≤ f y := by
  intro xs
  induction xs with
  | nil => intro a; simp
  | cons x xs ih =>
    intro a
    simp only [List.foldl_cons]
    by_cases hfx : f x < f a
    · rw [if_pos hfx]
      obtain ⟨hmem, hle, hall⟩ := ih x
      refine ⟨?_, by omega, ?_⟩
      · rcases hmem with hmem | hmem
        · right
          simp [hmem]
        · right
          simp [hmem]
      · intro y hy
        rcases List.mem_cons.mp hy with hy | hy
        · rw [hy]
          exact hle
        · exact hall y hy
    · rw [if_neg hfx]
      obtain ⟨hmem, hle, hall⟩ := ih a
      refine ⟨?_, hle, ?_⟩
      · rcases hmem with hmem | hmem
        · left
          exact hmem
        · right
          simp [hmem]
      · intro y hy
        rcases List.mem_cons.mp hy with hy | hy
        · rw [hy]
          omega
        · exact hall y hy

/-- Specification of `pymin` on non-empty lists. -/
theorem pymin_spec (f : α → Nat) (xs : List α) (hne : xs ≠ []) :
    ∃ x, pymin f xs = some x ∧ x ∈ xs ∧ ∀ y ∈ xs, f x ≤ f y := by
  match xs, hne with
  | x :: xs, _ =>
    obtain ⟨hmem, hle, hall⟩ := pymin_foldl_spec f xs x
    refine ⟨_, rfl, ?_, ?_⟩
    · rcases hmem with hmem | hmem
      · rw [hmem]
        simp
      · simp [hmem]
    · intro y hy
      rcases List.mem_cons.mp hy with hy | hy
      · rw [hy]
        exact hle
      · exact hall y hy

/-- C5: For every odd prime `ℓ ≥ 3` for which some differential
addition chain from the seed `(1, 2, 3)` reaches `ℓ` within the depth
bound (`k ≤ 1.5·log₂ ℓ`, encoded exactly as `4^k ≤ ℓ^3`), `sdac(ℓ)`
returns a chain that reaches `ℓ`, respects the bound, and is of minimum
length among all chains that reach `ℓ` within the bound. -/
theorem C5_sdac_minimal (l : Nat) (hodd : Odd l) (hprime : Nat.Prime l)
    (h3 : 3 ≤ l)
    (hex : ∃ c : List Nat, (∀ b ∈ c, b = 0 ∨ b = 1) ∧ chaintarget c = l ∧
      4 ^ c.length ≤ l ^ 3) :
    ∃ c : List Nat, sdac l = some c ∧ chaintarget c = l ∧ 4 ^ c.length ≤ l ^ 3 ∧
      ∀ c2 : List Nat, chaintarget c2 = l → 4 ^ c2.length ≤ l ^ 3 →
        c.length ≤ c2.length := by
  obtain ⟨c0, hbin0, htar0, hlen0⟩ := hex
  have hmem0 : (([] : List Nat) ++ c0, l) ∈ dacs l 1 2 3 [] :=
    dacs_complete c0 l 1 2 3 [] (by norm_num) (by norm_num) (by norm_num) hbin0
      htar0
      (fun k hk => by
        simp only [List.length_nil, Nat.zero_add]
        calc 4 ^ k ≤ 4 ^ c0.length := Nat.pow_le_pow_right (by norm_num) (by omega)
          _ ≤ l ^ 3 := hlen0)
  have hne : dacs l 1 2 3 [] ≠ [] := by
    intro h
    rw [h] at hmem0
    simp at hmem0
  obtain ⟨x, hpy, hxmem, hxmin⟩ := pymin_spec (fun t => t.1.length) (dacs l 1 2 3 []) hne
  obtain ⟨t, hct, hext⟩ := dacs_sound l 1 2 3 [] x.1 x.2 (by rwa [Prod.mk.eta])
  have htarx : chaintarget x.1 = l := by
    show (chainexec (1, 2, 3) x.1).2.2 = l
    rw [hct]
    simpa using hext
  have hminc0 : x.1.length ≤ c0.length := by
    have := hxmin (([] : List Nat) ++ c0, l) hmem0
    simpa using this
  have hxbound : 4 ^ x.1.length ≤ l ^ 3 :=
    le_trans (Nat.pow_le_pow_right (by norm_num) hminc0) hlen0
  refine ⟨x.1, ?_, htarx, hxbound, ?_⟩
  · unfold sdac
    rw [hpy]
    rfl
  · intro c2 htar2 hlen2
    have hbin2 : ∀ b ∈ c2.map (fun b => if b = 1 then 1 else 0), b = 0 ∨ b = 1 := by
      intro b hb
      rcases List.mem_map.mp hb with ⟨y, hy2, rfl⟩
      by_cases hy1 : y = 1 <;> simp [hy1]
    have hlen2n : (c2.map (fun b => if b = 1 then 1 else 0)).length = c2.length :=
      List.length_map _ _
    have htar2n : chaintarget (c2.map (fun b => if b = 1 then 1 else 0)) = l := by
      show (chainexec (1, 2, 3) _).2.2 = l
      rw [chainexec_norm]
      exact htar2
    have hmem2 : (([] : List Nat) ++ c2.map (fun b => if b = 1 then 1 else 0), l) ∈
        dacs l 1 2 3 [] :=
      dacs_complete _ l 1 2 3 [] (by norm_num) (by norm_num) (by norm_num) hbin2
        htar2n
        (fun k hk => by
          simp only [List.length_nil, Nat.zero_add]
          rw [hlen2n] at hk
          calc 4 ^ k ≤ 4 ^ c2.length := Nat.pow_le_pow_right (by norm_num) (by omega)
            _ ≤ l ^ 3 := hlen2)
    have := hxmin _ hmem2
    simpa [hlen2n] using this

/-- Witness for C5 at `ℓ = 5`: the chain `[0]` reaches `5` within the
bound, so `sdac 5` returns a minimal valid chain. -/
theorem C5_sdac_minimal_witness :
    ∃ c : List Nat, sdac 5 = some c ∧ chaintarget c = 5 ∧ 4 ^ c.length ≤ 5 ^ 3 ∧
      ∀ c2 : List Nat, chaintarget c2 = 5 → 4 ^ c2.length ≤ 5 ^ 3 →
        c.length ≤ c2.length :=
  C5_sdac_minimal 5 ⟨2, by norm_num⟩ (by norm_num) (by norm_num)
    ⟨[0], by decide, by decide, by norm_num⟩

end Velu
